import Mathlib

/- Verification of the SIC code-normalization engine (sic_data.py).

The engine is embedded shallowly:
  - Python strings are Lean String (a structure over List Char); the char-level
    helpers below mirror str.rstrip, str.isdigit, str.strip, str.replace,
    str.zfill and the decimal rendering used by str(x).
  - Python sets of strings are Finset String; set/dict iteration order never
    influences the results modeled here (all updates are commutative), so the
    loops over sets are denoted by biUnion and filter.
  - The registry data (VALID_SIC_CODES and SECTION_LOOKUP, loaded from an
    external data module) is a parameter of every operation, bundled in the
    Registry structure.
  - Scores (Python floats used only with max and a threshold comparison) are
    embedded as rationals. -/

namespace SicData

/-- Tests whether a character is a wildcard marker, as in str.rstrip("xX"). -/
def isXxChar (c : Char) : Bool := c == 'x' || c == 'X'

/-- Embedding of str.rstrip("xX"): drop trailing wildcard markers. -/
def rstripXx (l : List Char) : List Char := (l.reverse.dropWhile isXxChar).reverse

/-- Embedding of str.isdigit: nonempty and all decimal digits. -/
def pyIsDigit (l : List Char) : Bool := !l.isEmpty && l.all Char.isDigit

/-- Embedding of str.strip): drop surrounding whitespace. -/
def pyStrip (l : List Char) : List Char :=
  ((l.dropWhile Char.isWhitespace).reverse.dropWhile Char.isWhitespace).reverse

/-- Decimal rendering of x zero-padded to exactly w characters, the value of
Python str(x).zfill(w) for x < 10 ^ w (the only use in the source is over
range(10 ** fill_digits)). -/
def decimalPadChars : Nat → Nat → List Char
  | 0, _ => []
  | w + 1, x => decimalPadChars w (x / 10) ++ [Nat.digitChar (x % 10)]

/-- The external registry data: the set VALID_SIC_CODES and the mapping
SECTION_LOOKUP from a 2-digit division to its section letter. -/
structure Registry where
  valid : Finset String
  sectionOf : String → Option String

/-- EXPECTED_CODE_LENGTH from the source. -/
def EXPECTED_CODE_LENGTH : Nat := 5

/-- INVALID_VALUES from the source. The tuple also contains the Python object
None, which can never equal a string argument once str() has been applied, so
only the string members are kept. -/
def INVALID_VALUES : List String :=
  ["-9", "4+", "", ".", " ", "NAN", "NaN", "nan", "None", "Null", "<NA>"]

/-- Embedding of expand_to_n_digit_str: all numerically possible n-digit
extensions of the input, or the singleton when the input is already long
enough. -/
def expand_to_n_digit_str (input_str : String) (n : Nat) : Finset String :=
  if n ≤ input_str.data.length then {input_str}
  else
    (Finset.range (10 ^ (n - input_str.data.length))).image
      (fun x => String.mk (input_str.data ++ decimalPadChars (n - input_str.data.length) x))

/-- Embedding of validate_sic_codes on a set input: intersect with
VALID_SIC_CODES. The string and wrong-type arms of the source function are not
reached by the code paths modeled here, which always pass sets. -/
def validate_sic_codes (reg : Registry) (input_set : Finset String) : Finset String :=
  input_set ∩ reg.valid

/-- Embedding of get_clean_n_digit_one_code. -/
def get_clean_n_digit_one_code (reg : Registry) (input_str : String) (n : Nat) : Finset String :=
  let t : List Char := rstripXx input_str.data
  if pyIsDigit t then
    let n_digits := if 0 < n then n else 2
    let prep_set : Finset String :=
      if n_digits ≤ t.length then {String.mk (t.take n_digits)}
      else expand_to_n_digit_str (String.mk t) n_digits
    let prep_set2 : Finset String :=
      if n = 0 then
        (prep_set.filter (fun c => (reg.sectionOf c).isSome)).image
          (fun c => (reg.sectionOf c).getD "")
      else prep_set
    validate_sic_codes reg prep_set2
  else ∅

/-- One iteration of the accumulation loop of get_clean_n_digit_codes. -/
def cleanStep (reg : Registry) (n : Nat) (acc : Finset String × Finset String)
    (item : String) : Finset String × Finset String :=
  let result := get_clean_n_digit_one_code reg item n
  if result = ∅ then (acc.1, insert item acc.2) else (acc.1 ∪ result, acc.2)

/-- Embedding of get_clean_n_digit_codes on a list input (a single string
argument is wrapped by the source into a one-element list). -/
def get_clean_n_digit_codes (reg : Registry) (input_list : List String) (n : Nat) :
    Finset String × Finset String :=
  input_list.foldl (cleanStep reg n) (∅, ∅)

/-- Embedding of get_clean_n_digit_codes on a set input. The source loop visits
the set in unspecified order; both accumulators are order-independent (a union
of per-item results and the subset of items cleaning to nothing), so the
denotation is a biUnion and a filter. -/
def get_clean_n_digit_codes_set (reg : Registry) (input_set : Finset String) (n : Nat) :
    Finset String × Finset String :=
  (input_set.biUnion (fun item => get_clean_n_digit_one_code reg item n),
   input_set.filter (fun item => get_clean_n_digit_one_code reg item n = ∅))

/-- Embedding of str.replace for a two-character pattern, replacing every
non-overlapping occurrence left to right by the empty string. -/
def removeTwoChar (a b : Char) : List Char → List Char
  | [] => []
  | [c] => [c]
  | c :: d :: cs =>
    if c = a ∧ d = b then removeTwoChar a b cs
    else c :: removeTwoChar a b (d :: cs)

/-- Scanner state step for re.findall with the pattern ([0-9]+x*X*): decides
whether character c may extend a token whose last character is prev. Digits
extend only the digit run, a lowercase x extends the digit or x run, an
uppercase X extends any run. -/
def canExtend (prev c : Char) : Bool :=
  if c.isDigit then prev.isDigit
  else if c == 'x' then prev.isDigit || prev == 'x'
  else if c == 'X' then prev.isDigit || prev == 'x' || prev == 'X'
  else false

/-- Left-to-right maximal-munch scanner equivalent to re.findall with the
pattern ([0-9]+x*X*). The accumulator cur holds the token being built, in
reverse. -/
def tokGo : List Char → List Char → List (List Char)
  | cur, [] => if cur.isEmpty then [] else [cur.reverse]
  | [], c :: cs => if c.isDigit then tokGo [c] cs else tokGo [] cs
  | p :: ps, c :: cs =>
    if canExtend p c then tokGo (c :: p :: ps) cs
    else if c.isDigit then (p :: ps).reverse :: tokGo [c] cs
    else (p :: ps).reverse :: tokGo [] cs

/-- All maximal tokens matching ([0-9]+x*X*), in order of occurrence. -/
def extractTokens (l : List Char) : List (List Char) := tokGo [] l

/-- Embedding of str.zfill for the extracted tokens (which never start with a
sign character): left-pad with zeros to the requested width. -/
def zfillChars (w : Nat) (l : List Char) : List Char :=
  List.replicate (w - l.length) '0' ++ l

/-- Embedding of parse_numerical_code with the default extraction pattern
([0-9]+x*X*): strip the argument, short-circuit on a sentinel value, delete the
substrings -9 and 4+, extract the tokens and zero-pad each one. -/
def parse_numerical_code (candidates_str : String) (padding : Nat := EXPECTED_CODE_LENGTH) :
    Finset String :=
  let t : List Char := pyStrip candidates_str.data
  if String.mk t ∈ INVALID_VALUES then ∅
  else
    let u : List Char := removeTwoChar '4' '+' (removeTwoChar '-' '9' t)
    ((extractTokens u).map (fun tok => String.mk (zfillChars padding tok))).toFinset

/-- One element of the alt_candidates list: either a dict exposing the
configured code and likelihood fields (each possibly absent, already formatted
to a string by the f-string in the source), or a non-dict element. -/
inductive AltItem where
  | record (code : Option String) (likelihood : Option ℚ)
  | notDict (tag : String)

/-- Tests whether an element of alt_candidates is a dict. -/
def AltItem.isRecord : AltItem → Bool
  | .record _ _ => true
  | .notDict _ => false

/-- State of the extraction loop of extract_alt_candidates_n_digit_codes: the
cleaned code-to-score dict (as its key set plus score function) and the set of
raw codes that cleaned to nothing. -/
structure RState where
  score : String → Option ℚ
  keys : Finset String
  invalid : Finset String

/-- One iteration of the loop of extract_alt_candidates_n_digit_codes: skip a
non-dict element; otherwise clean the raw code, record it as invalid when no
code survives, and otherwise merge every produced code into the dict taking the
maximum score on collision. -/
def resolverStep (reg : Registry) (n : Nat) (st : RState) : AltItem → RState
  | .notDict _ => st
  | .record code likelihood =>
    let raw_code := code.getD ""
    let codes := get_clean_n_digit_one_code reg raw_code n
    if codes = ∅ then { st with invalid := insert raw_code st.invalid }
    else
      let s := likelihood.getD 0
      { score := fun c =>
          if c ∈ codes then
            some (match st.score c with
              | some v => max v s
              | none => s)
          else st.score c,
        keys := st.keys ∪ codes,
        invalid := st.invalid }

/-- Initial state of the extraction loop: empty dict, empty invalid set. -/
def resolverInit : RState := ⟨fun _ => none, ∅, ∅⟩

/-- State of the extraction loop after consuming the whole candidate list. -/
def resolverFinal (reg : Registry) (n : Nat) (items : List AltItem) : RState :=
  items.foldl (resolverStep reg n) resolverInit

/-- Embedding of extract_alt_candidates_n_digit_codes on a list input: run the
extraction loop, threshold the dict, and return the pruned set only when it is
a singleton, the full key set otherwise, together with the invalid set. -/
def extract_alt_candidates_n_digit_codes (reg : Registry) (items : List AltItem)
    (n : Nat) (threshold : ℚ) : Finset String × Finset String :=
  let st := resolverFinal reg n items
  let pruned := st.keys.filter (fun c => threshold ≤ (st.score c).getD 0)
  (if pruned.card = 1 then pruned else st.keys, st.invalid)

/-- Maximum of a list of rationals, none for the empty list. -/
def listMaxOpt : List ℚ → Option ℚ
  | [] => none
  | x :: l =>
    some (match listMaxOpt l with
      | none => x
      | some v => max v x)

/-- The level loop of get_codability_level: re-clean the working set at each
digit width, replacing it by the cleaned result, and stop at the first level
whose cleaned set has exactly one member. -/
def codabilityLoop (reg : Registry) : List (Nat × String) → Finset String → String
  | [], _ => "Uncodable"
  | (digits, label) :: rest, codes =>
    let cleaned := (get_clean_n_digit_codes_set reg codes digits).1
    if cleaned.card = 1 then label else codabilityLoop reg rest cleaned

/-- The level table iterated by get_codability_level, finest to coarsest. -/
def hierarchyLevels : List (Nat × String) :=
  [(5, "Sub-class (5-digits)"), (4, "Class (4-digits)"), (3, "Group (3-digits)"),
   (2, "Division (2-digits)"), (0, "Section (letter)")]

/-- Embedding of get_codability_level on a set input. -/
def get_codability_level (reg : Registry) (codes : Finset String) : String :=
  if codes = ∅ then "Uncodable" else codabilityLoop reg hierarchyLevels codes

/-- Restatement of the Codability Classifier contract following the words of
the spec: working sets are re-derived by the Set Cleaner at widths 5, 4, 3, 2
then 0, each replacing the previous one, and the label of the first width whose
valid set has exactly one member is returned, with Uncodable when no width
produces a singleton (the empty input included). -/
def codabilitySpec (reg : Registry) (codes : Finset String) : String :=
  let s5 := (get_clean_n_digit_codes_set reg codes 5).1
  let s4 := (get_clean_n_digit_codes_set reg s5 4).1
  let s3 := (get_clean_n_digit_codes_set reg s4 3).1
  let s2 := (get_clean_n_digit_codes_set reg s3 2).1
  let s0 := (get_clean_n_digit_codes_set reg s2 0).1
  if s5.card = 1 then "Sub-class (5-digits)"
  else if s4.card = 1 then "Class (4-digits)"
  else if s3.card = 1 then "Group (3-digits)"
  else if s2.card = 1 then "Division (2-digits)"
  else if s0.card = 1 then "Section (letter)"
  else "Uncodable"

/-- Dynamically typed argument shapes a caller can pass where the source
expects a collection: a string, a list, a set, or some other Python object
(carrying only its truthiness and a description). -/
inductive DynInput where
  | strIn (s : String)
  | listIn (l : List String)
  | setIn (s : Finset String)
  | otherIn (truthy : Bool) (tag : String)

/-- Python truthiness of a DynInput, as tested by the early return of
get_codability_level. -/
def dynFalsy : DynInput → Bool
  | .strIn s => s.data.isEmpty
  | .listIn l => l.isEmpty
  | .setIn s => decide (s = ∅)
  | .otherIn truthy _ => !truthy

/-- Return shape of get_clean_n_digit_codes: the normal pair, or the bare
single set produced by the wrong-type arm. -/
inductive CleanOut where
  | pair (valid invalid : Finset String)
  | bare (valid : Finset String)

/-- Embedding of get_clean_n_digit_codes over every accepted argument shape:
a string is wrapped into a one-element list, a list or set runs the loop, and
any other type logs a warning and returns a single empty set instead of the
pair. -/
def get_clean_n_digit_codes_dyn (reg : Registry) (inp : DynInput) (n : Nat) : CleanOut :=
  match inp with
  | .strIn s =>
    let r := get_clean_n_digit_codes reg [s] n
    .pair r.1 r.2
  | .listIn l =>
    let r := get_clean_n_digit_codes reg l n
    .pair r.1 r.2
  | .setIn s =>
    let r := get_clean_n_digit_codes_set reg s n
    .pair r.1 r.2
  | .otherIn _ _ => .bare ∅

/-- Embedding of get_codability_level over every argument shape, with Except
modeling Python exception propagation: the first loop iteration unpacks the
result of get_clean_n_digit_codes into a tuple of two, which raises ValueError
when the wrong-type arm returned the bare single set. Later iterations always
work on sets, hence never raise. -/
def get_codability_level_dyn (reg : Registry) (inp : DynInput) : Except String String :=
  if dynFalsy inp then .ok "Uncodable"
  else
    match get_clean_n_digit_codes_dyn reg inp 5 with
    | .bare _ => .error "ValueError: not enough values to unpack"
    | .pair v _ =>
      .ok (if v.card = 1 then "Sub-class (5-digits)"
           else codabilityLoop reg (hierarchyLevels.drop 1) v)

/-- A small concrete registry agreeing with the fixtures exercised by the test
suite of the repository: 86 and 01 family codes at each width, and the section
letters A, C, Q with their division lookups. -/
def testReg : Registry where
  valid := {"01", "016", "0162", "01621", "86", "861", "8610", "86101", "86210", "A", "C", "Q"}
  sectionOf := fun s => List.lookup s [("01", "A"), ("20", "C"), ("86", "Q")]

/-- Value of a digit string read in base 10. -/
def charsVal (l : List Char) : Nat := l.foldl (fun a c => 10 * a + (c.toNat - 48)) 0

/-- Merge of an old dict score with an optional new score, taking the maximum
on collision. -/
def combineOpt (a : Option ℚ) : Option ℚ → Option ℚ
  | none => a
  | some v =>
    match a with
    | none => some v
    | some u => some (max u v)

/-- The score a single candidate list element offers for the code c: the
likelihood (defaulting to 0 when the field is absent) when the element is a
dict whose cleaned code set contains c, nothing otherwise. -/
def reachScore (reg : Registry) (n : Nat) (c : String) : AltItem → Option ℚ
  | .record code likelihood =>
    if c ∈ get_clean_n_digit_one_code reg (code.getD "") n then some (likelihood.getD 0)
    else none
  | .notDict _ => none

/-- Whether a candidate list element produces the code x. -/
def reaches (reg : Registry) (n : Nat) (i : AltItem) (x : String) : Prop :=
  match i with
  | .record code _ => x ∈ get_clean_n_digit_one_code reg (code.getD "") n
  | .notDict _ => False

/-- The characters the extraction pattern ([0-9]+x*X*) can include in a
token. -/
def isTokChar (c : Char) : Bool := c.isDigit || c == 'x' || c == 'X'

/- Generic helper lemmas about characters and lists. -/

theorem dropWhile_length_le (p : Char → Bool) (l : List Char) :
    (l.dropWhile p).length ≤ l.length := by
  induction l with
  | nil => simp [List.dropWhile]
  | cons a l ih =>
    rw [List.dropWhile_cons]
    split
    · exact Nat.le_trans ih (Nat.le_succ _)
    · simp

theorem dropWhile_eq_self_of_all_not {p : Char → Bool} {l : List Char}
    (h : ∀ c ∈ l, p c = false) : l.dropWhile p = l := by
  cases l with
  | nil => rfl
  | cons a l => rw [List.dropWhile_cons, h a (by simp)]; simp

theorem digit_toNat_bounds (c : Char) (h : c.isDigit = true) :
    48 ≤ c.toNat ∧ c.toNat ≤ 57 := by
  simp only [Char.isDigit, Bool.and_eq_true, decide_eq_true_eq] at h
  obtain ⟨h1, h2⟩ := h
  exact ⟨UInt32.le_toNat_of_le (by decide) h1, UInt32.toNat_le_of_le (by decide) h2⟩

theorem digit_char_eq (c : Char) (h : c.isDigit = true) :
    Nat.digitChar (c.toNat - 48) = c := by
  obtain ⟨h1, h2⟩ := digit_toNat_bounds c h
  have key : ∀ m : Nat, m < 10 → Nat.digitChar m = Char.ofNat (48 + m) := by
    intro m hm
    interval_cases m <;> decide
  have hc : Char.ofNat (48 + (c.toNat - 48)) = c := by
    rw [show 48 + (c.toNat - 48) = c.toNat from by omega, Char.ofNat_toNat]
  rw [key _ (by omega), hc]

theorem digitChar_isDigit {m : Nat} (h : m < 10) : (Nat.digitChar m).isDigit = true := by
  interval_cases m <;> decide

theorem digitChar_toNat {m : Nat} (h : m < 10) : (Nat.digitChar m).toNat = 48 + m := by
  interval_cases m <;> decide

theorem isDigit_not_isXxChar {c : Char} (h : c.isDigit = true) : isXxChar c = false := by
  have hx : c ≠ 'x' := by intro he; rw [he] at h; exact absurd h (by decide)
  have hX : c ≠ 'X' := by intro he; rw [he] at h; exact absurd h (by decide)
  simp [isXxChar, beq_eq_false_iff_ne, hx, hX]

theorem rstripXx_of_all_digit {l : List Char} (h : l.all Char.isDigit = true) :
    rstripXx l = l := by
  unfold rstripXx
  rw [dropWhile_eq_self_of_all_not, List.reverse_reverse]
  intro c hc
  exact isDigit_not_isXxChar (List.all_eq_true.mp h c (List.mem_reverse.mp hc))

/- Lemmas about the padded decimal rendering. -/

theorem decimalPadChars_length (w x : Nat) : (decimalPadChars w x).length = w := by
  induction w generalizing x with
  | zero => rfl
  | succ w ih => simp [decimalPadChars, ih]

theorem decimalPadChars_all_digit (w x : Nat) :
    (decimalPadChars w x).all Char.isDigit = true := by
  induction w generalizing x with
  | zero => rfl
  | succ w ih =>
    simp only [decimalPadChars, List.all_append, Bool.and_eq_true, ih, true_and]
    simp [digitChar_isDigit (Nat.mod_lt x (by omega))]


theorem charsVal_append_singleton (l : List Char) (c : Char) :
    charsVal (l ++ [c]) = 10 * charsVal l + (c.toNat - 48) := by
  unfold charsVal
  rw [List.foldl_append]
  rfl

theorem charsVal_decimalPadChars {w x : Nat} (h : x < 10 ^ w) :
    charsVal (decimalPadChars w x) = x := by
  induction w generalizing x with
  | zero =>
    simp only [pow_zero, Nat.lt_one_iff] at h
    simp [h, charsVal, decimalPadChars]
  | succ w ih =>
    have hx : x / 10 < 10 ^ w := by
      rw [Nat.div_lt_iff_lt_mul (by omega)]
      calc x < 10 ^ (w + 1) := h
      _ = 10 ^ w * 10 := by ring
    rw [decimalPadChars, charsVal_append_singleton, ih hx,
      digitChar_toNat (Nat.mod_lt x (by omega))]
    omega

theorem charsVal_lt (l : List Char) (h : l.all Char.isDigit = true) :
    charsVal l < 10 ^ l.length := by
  induction l using List.reverseRecOn with
  | nil => simp [charsVal]
  | append_singleton l c ih =>
    simp only [List.all_append, Bool.and_eq_true, List.all_cons, Bool.and_true,
      List.all_nil] at h
    obtain ⟨hl, hc⟩ := h
    obtain ⟨h1, h2⟩ := digit_toNat_bounds c hc
    have hv := ih hl
    have hlen : (l ++ [c]).length = l.length + 1 := by simp
    rw [charsVal_append_singleton, hlen, pow_succ]
    omega

theorem decimalPadChars_charsVal (l : List Char) (h : l.all Char.isDigit = true) :
    decimalPadChars l.length (charsVal l) = l := by
  induction l using List.reverseRecOn with
  | nil => rfl
  | append_singleton l c ih =>
    simp only [List.all_append, Bool.and_eq_true, List.all_cons, Bool.and_true,
      List.all_nil] at h
    obtain ⟨hl, hc⟩ := h
    obtain ⟨h1, h2⟩ := digit_toNat_bounds c hc
    have hm : c.toNat - 48 < 10 := by omega
    rw [List.length_append]
    simp only [List.length_cons, List.length_nil]
    rw [charsVal_append_singleton, decimalPadChars]
    have hdiv : (10 * charsVal l + (c.toNat - 48)) / 10 = charsVal l := by omega
    have hmod : (10 * charsVal l + (c.toNat - 48)) % 10 = c.toNat - 48 := by omega
    rw [hdiv, hmod, ih hl, digit_char_eq c hc]

/- Structural lemmas about the Single-Code Cleaner and the Expander. -/

theorem mem_expand {t : String} {n : Nat} (h : t.data.length < n) {x : String} :
    x ∈ expand_to_n_digit_str t n ↔
      ∃ y, y < 10 ^ (n - t.data.length) ∧
        x = String.mk (t.data ++ decimalPadChars (n - t.data.length) y) := by
  unfold expand_to_n_digit_str
  rw [if_neg (by omega)]
  simp only [Finset.mem_image, Finset.mem_range]
  constructor
  · rintro ⟨y, hy, rfl⟩
    exact ⟨y, hy, rfl⟩
  · rintro ⟨y, hy, rfl⟩
    exact ⟨y, hy, rfl⟩

theorem mem_expand_shape {t : String} {n : Nat} (h : t.data.length < n)
    (hall : t.data.all Char.isDigit = true) {x : String}
    (hx : x ∈ expand_to_n_digit_str t n) :
    x.data.length = n ∧ x.data.all Char.isDigit = true := by
  obtain ⟨y, _, rfl⟩ := (mem_expand h).mp hx
  refine ⟨?_, ?_⟩
  · simp [List.length_append, decimalPadChars_length]
    have ht : t.length = t.data.length := rfl
    omega
  · simp [List.all_append, hall, decimalPadChars_all_digit]

theorem oneCode_subset_valid (reg : Registry) (s : String) (n : Nat) :
    ∀ x ∈ get_clean_n_digit_one_code reg s n, x ∈ reg.valid := by
  intro x hx
  simp only [get_clean_n_digit_one_code, validate_sic_codes] at hx
  split at hx
  · exact (Finset.mem_inter.mp hx).2
  · simp at hx

theorem mem_oneCode_shape (reg : Registry) {s : String} {n : Nat} (hn : 1 ≤ n) {x : String}
    (hx : x ∈ get_clean_n_digit_one_code reg s n) :
    x.data.length = n ∧ x.data.all Char.isDigit = true ∧ x ∈ reg.valid := by
  simp only [get_clean_n_digit_one_code, validate_sic_codes] at hx
  split at hx
  case isFalse => simp at hx
  case isTrue hdig =>
    rw [if_neg (by omega : ¬ n = 0), if_pos (by omega : 0 < n)] at hx
    obtain ⟨hmem, hval⟩ := Finset.mem_inter.mp hx
    have hall : (rstripXx s.data).all Char.isDigit = true := by
      unfold pyIsDigit at hdig
      exact (Bool.and_eq_true _ _ |>.mp hdig).2
    refine ?_
    split at hmem
    case isTrue hle =>
      rw [Finset.mem_singleton] at hmem
      subst hmem
      refine ⟨?_, ?_, hval⟩
      · simp [List.length_take]
        omega
      · rw [List.all_eq_true]
        intro c hc
        exact List.all_eq_true.mp hall c (List.mem_of_mem_take hc)
    case isFalse hgt =>
      have hsh := mem_expand_shape (t := String.mk (rstripXx s.data)) (n := n)
        (by simpa using by omega) (by simpa using hall) hmem
      exact ⟨hsh.1, hsh.2, hval⟩

theorem oneCode_fixed (reg : Registry) {s : String} {n : Nat} (hn : 1 ≤ n)
    (hlen : s.data.length = n) (hdig : s.data.all Char.isDigit = true)
    (hval : s ∈ reg.valid) :
    get_clean_n_digit_one_code reg s n = {s} := by
  have hr : rstripXx s.data = s.data := rstripXx_of_all_digit hdig
  have hne : s.data ≠ [] := by
    intro h0
    rw [h0] at hlen
    simp at hlen
    omega
  have hp : pyIsDigit s.data = true := by
    unfold pyIsDigit
    rw [hdig]
    simpa using hne
  simp only [get_clean_n_digit_one_code, validate_sic_codes, hr, hp, if_true]
  rw [if_neg (by omega : ¬ n = 0), if_pos (by omega : 0 < n),
    if_pos (le_of_eq hlen.symm), List.take_of_length_le (le_of_eq hlen)]
  have hs : String.mk s.data = s := rfl
  rw [hs]
  exact Finset.singleton_inter_of_mem hval

/- Characterization of the Set Cleaner accumulation loop. -/

theorem cleanFold_fst_mem (reg : Registry) (n : Nat) (l : List String) :
    ∀ (acc : Finset String × Finset String) (x : String),
      x ∈ (l.foldl (cleanStep reg n) acc).1 ↔
        x ∈ acc.1 ∨ ∃ t ∈ l, x ∈ get_clean_n_digit_one_code reg t n := by
  induction l with
  | nil => simp
  | cons a l ih =>
    intro acc x
    rw [List.foldl_cons, ih]
    unfold cleanStep
    by_cases h : get_clean_n_digit_one_code reg a n = ∅
    · rw [if_pos h]
      simp only [List.mem_cons]
      constructor
      · rintro (hx | ⟨t, ht, hx⟩)
        · exact Or.inl hx
        · exact Or.inr ⟨t, Or.inr ht, hx⟩
      · rintro (hx | ⟨t, ht, hx⟩)
        · exact Or.inl hx
        · rcases ht with rfl | ht2
          · rw [h] at hx
            simp at hx
          · exact Or.inr ⟨t, ht2, hx⟩
    · rw [if_neg h]
      simp only [Finset.mem_union, List.mem_cons]
      constructor
      · rintro ((hx | hx) | ⟨t, ht, hx⟩)
        · exact Or.inl hx
        · exact Or.inr ⟨a, Or.inl rfl, hx⟩
        · exact Or.inr ⟨t, Or.inr ht, hx⟩
      · rintro (hx | ⟨t, ht, hx⟩)
        · exact Or.inl (Or.inl hx)
        · rcases ht with rfl | ht2
          · exact Or.inl (Or.inr hx)
          · exact Or.inr ⟨t, ht2, hx⟩

theorem cleanFold_snd_mem (reg : Registry) (n : Nat) (l : List String) :
    ∀ (acc : Finset String × Finset String) (x : String),
      x ∈ (l.foldl (cleanStep reg n) acc).2 ↔
        x ∈ acc.2 ∨ (x ∈ l ∧ get_clean_n_digit_one_code reg x n = ∅) := by
  induction l with
  | nil => simp
  | cons a l ih =>
    intro acc x
    rw [List.foldl_cons, ih]
    unfold cleanStep
    by_cases h : get_clean_n_digit_one_code reg a n = ∅
    · rw [if_pos h]
      simp only [Finset.mem_insert, List.mem_cons]
      constructor
      · rintro ((rfl | hx) | ⟨hx, he⟩)
        · exact Or.inr ⟨Or.inl rfl, h⟩
        · exact Or.inl hx
        · exact Or.inr ⟨Or.inr hx, he⟩
      · rintro (hx | ⟨rfl | hx, he⟩)
        · exact Or.inl (Or.inr hx)
        · exact Or.inl (Or.inl rfl)
        · exact Or.inr ⟨hx, he⟩
    · rw [if_neg h]
      simp only [List.mem_cons]
      constructor
      · rintro (hx | ⟨hx, he⟩)
        · exact Or.inl hx
        · exact Or.inr ⟨Or.inr hx, he⟩
      · rintro (hx | ⟨rfl | hx, he⟩)
        · exact Or.inl hx
        · exact absurd he h
        · exact Or.inr ⟨hx, he⟩

theorem mem_clean_fst (reg : Registry) (l : List String) (n : Nat) (x : String) :
    x ∈ (get_clean_n_digit_codes reg l n).1 ↔
      ∃ t ∈ l, x ∈ get_clean_n_digit_one_code reg t n := by
  rw [get_clean_n_digit_codes, cleanFold_fst_mem]
  simp

theorem mem_clean_snd (reg : Registry) (l : List String) (n : Nat) (x : String) :
    x ∈ (get_clean_n_digit_codes reg l n).2 ↔
      x ∈ l ∧ get_clean_n_digit_one_code reg x n = ∅ := by
  rw [get_clean_n_digit_codes, cleanFold_snd_mem]
  simp

theorem mem_cleanSet_fst (reg : Registry) (s : Finset String) (n : Nat) (x : String) :
    x ∈ (get_clean_n_digit_codes_set reg s n).1 ↔
      ∃ t ∈ s, x ∈ get_clean_n_digit_one_code reg t n := by
  simp [get_clean_n_digit_codes_set]

theorem mem_cleanSet_snd (reg : Registry) (s : Finset String) (n : Nat) (x : String) :
    x ∈ (get_clean_n_digit_codes_set reg s n).2 ↔
      x ∈ s ∧ get_clean_n_digit_one_code reg x n = ∅ := by
  simp [get_clean_n_digit_codes_set]

/- Lemmas about the Alternative-Candidate Resolver loop. -/




theorem step_score (reg : Registry) (n : Nat) (st : RState) (i : AltItem) (c : String) :
    (resolverStep reg n st i).score c = combineOpt (st.score c) (reachScore reg n c i) := by
  cases i with
  | notDict tag => rfl
  | record code likelihood =>
    simp only [resolverStep, reachScore]
    by_cases h : get_clean_n_digit_one_code reg (code.getD "") n = ∅
    · simp only [if_pos h, h]
      rfl
    · rw [if_neg h]
      dsimp only
      by_cases hc : c ∈ get_clean_n_digit_one_code reg (code.getD "") n
      · rw [if_pos hc, if_pos hc]
        cases st.score c <;> rfl
      · rw [if_neg hc, if_neg hc]
        rfl

theorem combine_snoc (a : Option ℚ) (s : ℚ) (l : List ℚ) :
    combineOpt (combineOpt a (some s)) (listMaxOpt l) = combineOpt a (listMaxOpt (s :: l)) := by
  cases a with
  | none =>
    cases hl : listMaxOpt l with
    | none => simp [combineOpt, listMaxOpt, hl]
    | some v =>
      simp [combineOpt, listMaxOpt, hl]
      rw [max_comm]
  | some u =>
    cases hl : listMaxOpt l with
    | none => simp [combineOpt, listMaxOpt, hl]
    | some v =>
      simp [combineOpt, listMaxOpt, hl]
      rw [max_assoc, max_comm s v]

theorem fold_score (reg : Registry) (n : Nat) (c : String) :
    ∀ (items : List AltItem) (st : RState),
      (items.foldl (resolverStep reg n) st).score c =
        combineOpt (st.score c) (listMaxOpt (items.filterMap (reachScore reg n c))) := by
  intro items
  induction items with
  | nil => intro st; rfl
  | cons i items ih =>
    intro st
    rw [List.foldl_cons, ih, step_score, List.filterMap_cons]
    cases hsc : reachScore reg n c i with
    | none => rfl
    | some s => exact combine_snoc _ s _

theorem fold_keys (reg : Registry) (n : Nat) :
    ∀ (items : List AltItem) (st : RState) (x : String),
      x ∈ (items.foldl (resolverStep reg n) st).keys ↔
        x ∈ st.keys ∨ ∃ i ∈ items, reaches reg n i x := by
  intro items
  induction items with
  | nil => simp
  | cons i items ih =>
    intro st x
    rw [List.foldl_cons, ih]
    cases i with
    | notDict tag =>
      simp only [resolverStep, List.mem_cons]
      constructor
      · rintro (hx | ⟨j, hj, hr⟩)
        · exact Or.inl hx
        · exact Or.inr ⟨j, Or.inr hj, hr⟩
      · rintro (hx | ⟨j, hj, hr⟩)
        · exact Or.inl hx
        · rcases hj with rfl | hj2
          · exact absurd hr id
          · exact Or.inr ⟨j, hj2, hr⟩
    | record code likelihood =>
      by_cases h : get_clean_n_digit_one_code reg (code.getD "") n = ∅
      · simp only [resolverStep, if_pos h, List.mem_cons]
        constructor
        · rintro (hx | ⟨j, hj, hr⟩)
          · exact Or.inl hx
          · exact Or.inr ⟨j, Or.inr hj, hr⟩
        · rintro (hx | ⟨j, hj, hr⟩)
          · exact Or.inl hx
          · rcases hj with rfl | hj2
            · simp only [reaches] at hr
              rw [h] at hr
              simp at hr
            · exact Or.inr ⟨j, hj2, hr⟩
      · simp only [resolverStep, if_neg h, Finset.mem_union, List.mem_cons]
        constructor
        · rintro ((hx | hx) | ⟨j, hj, hr⟩)
          · exact Or.inl hx
          · exact Or.inr ⟨.record code likelihood, Or.inl rfl, hx⟩
          · exact Or.inr ⟨j, Or.inr hj, hr⟩
        · rintro (hx | ⟨j, hj, hr⟩)
          · exact Or.inl (Or.inl hx)
          · rcases hj with rfl | hj2
            · exact Or.inl (Or.inr hr)
            · exact Or.inr ⟨j, hj2, hr⟩

theorem mem_resolver_keys (reg : Registry) (n : Nat) (items : List AltItem) (x : String) :
    x ∈ (resolverFinal reg n items).keys ↔ ∃ i ∈ items, reaches reg n i x := by
  rw [resolverFinal, fold_keys]
  simp [resolverInit]

theorem resolver_keys_subset_valid (reg : Registry) (n : Nat) (items : List AltItem) :
    ∀ x ∈ (resolverFinal reg n items).keys, x ∈ reg.valid := by
  intro x hx
  obtain ⟨i, _, hr⟩ := (mem_resolver_keys reg n items x).mp hx
  cases i with
  | record code likelihood => exact oneCode_subset_valid reg (code.getD "") n x hr
  | notDict tag => exact absurd hr id

/- Lemmas about the token scanner. -/


theorem canExtend_isTokChar {p c : Char} (h : canExtend p c = true) : isTokChar c = true := by
  by_cases h1 : c.isDigit = true
  · simp [isTokChar, h1]
  · by_cases h2 : (c == 'x') = true
    · simp [isTokChar, h2]
    · by_cases h3 : (c == 'X') = true
      · simp [isTokChar, h3]
      · unfold canExtend at h
        simp [h1, h2, h3] at h

theorem tokGo_chars :
    ∀ (l cur : List Char), (∀ c ∈ cur, isTokChar c = true) →
      ∀ tok ∈ tokGo cur l, ∀ c ∈ tok, isTokChar c = true := by
  intro l
  induction l with
  | nil =>
    intro cur hcur tok htok
    simp only [tokGo] at htok
    split at htok
    · simp at htok
    · simp only [List.mem_singleton] at htok
      subst htok
      intro c hc
      exact hcur c (List.mem_reverse.mp hc)
  | cons a l ih =>
    intro cur hcur tok htok
    cases cur with
    | nil =>
      rw [tokGo] at htok
      split at htok
      case isTrue ha =>
        refine ih [a] ?_ tok htok
        intro c hc
        simp only [List.mem_singleton] at hc
        subst hc
        simp [isTokChar, ha]
      case isFalse ha => exact ih [] (by simp) tok htok
    | cons p ps =>
      rw [tokGo] at htok
      split at htok
      case isTrue hext =>
        refine ih (a :: p :: ps) ?_ tok htok
        intro c hc
        rcases List.mem_cons.mp hc with rfl | hc2
        · exact canExtend_isTokChar hext
        · exact hcur c hc2
      case isFalse hext =>
        split at htok
        case isTrue ha =>
          rcases List.mem_cons.mp htok with rfl | htok2
          · intro c hc
            exact hcur c (List.mem_reverse.mp hc)
          · refine ih [a] ?_ tok htok2
            intro c hc
            simp only [List.mem_singleton] at hc
            subst hc
            simp [isTokChar, ha]
        case isFalse ha =>
          rcases List.mem_cons.mp htok with rfl | htok2
          · intro c hc
            exact hcur c (List.mem_reverse.mp hc)
          · exact ih [] (by simp) tok htok2

theorem extractTokens_chars {l : List Char} {tok : List Char} (h : tok ∈ extractTokens l) :
    ∀ c ∈ tok, isTokChar c = true :=
  tokGo_chars l [] (by simp) tok h

theorem extract_fst_subset_keys (reg : Registry) (items : List AltItem) (n : Nat)
    (threshold : ℚ) :
    (extract_alt_candidates_n_digit_codes reg items n threshold).1 ⊆
      (resolverFinal reg n items).keys := by
  simp only [extract_alt_candidates_n_digit_codes]
  split
  · exact Finset.filter_subset _ _
  · exact subset_rfl

/- Claim theorems. -/

/-- C1: for every candidate list, digit width and threshold, the valid set the
Resolver returns is either a singleton whose merged score meets the threshold,
or exactly the full key set of the code-to-score map, whose members are the
codes produced by the candidates that cleaned to at least one code; it is never
any other thresholded subset. -/
theorem resolver_valid_set_all_or_one (reg : Registry) (items : List AltItem) (n : Nat)
    (threshold : ℚ) :
    ((∃ c, (extract_alt_candidates_n_digit_codes reg items n threshold).1 = {c} ∧
        threshold ≤ ((resolverFinal reg n items).score c).getD 0) ∨
      (extract_alt_candidates_n_digit_codes reg items n threshold).1 =
        (resolverFinal reg n items).keys) ∧
    (∀ x, x ∈ (resolverFinal reg n items).keys ↔ ∃ i ∈ items, reaches reg n i x) := by
  constructor
  · simp only [extract_alt_candidates_n_digit_codes]
    by_cases hp :
        ((resolverFinal reg n items).keys.filter
          (fun c => threshold ≤ ((resolverFinal reg n items).score c).getD 0)).card = 1
    · left
      obtain ⟨c, hc⟩ := Finset.card_eq_one.mp hp
      refine ⟨c, by rw [if_pos hp, hc], ?_⟩
      have hmem : c ∈ (resolverFinal reg n items).keys.filter
          (fun c => threshold ≤ ((resolverFinal reg n items).score c).getD 0) := by
        rw [hc]
        exact Finset.mem_singleton_self c
      exact (Finset.mem_filter.mp hmem).2
    · right
      rw [if_neg hp]
  · intro x
    exact mem_resolver_keys reg n items x

/-- C2: the source classifier agrees everywhere with the spec-side description:
iterate Sub-class(5), Class(4), Group(3), Division(2), Section(0), re-cleaning
and replacing the working set at each width, returning the label of the first
width whose cleaned set is a singleton and Uncodable otherwise, the empty input
included. -/
theorem codability_level_meets_spec (reg : Registry) (codes : Finset String) :
    get_codability_level reg codes = codabilitySpec reg codes := by
  by_cases hc : codes = ∅
  · subst hc
    simp [get_codability_level, codabilitySpec, get_clean_n_digit_codes_set]
  · rw [get_codability_level, if_neg hc]
    simp only [hierarchyLevels, codabilityLoop, codabilitySpec]

/-- C3 (amended): every input token is accounted for in exactly one way — the
valid set is exactly the union of the cleaned code sets of the tokens, and the
invalid set is exactly the set of tokens cleaning to nothing — and for every
positive digit width the two returned sets are disjoint. At width 0 a raw
token equal to a registered section letter can appear in both sets. -/
theorem set_cleaner_accounting (reg : Registry) (l : List String) (n : Nat) :
    (∀ x, x ∈ (get_clean_n_digit_codes reg l n).1 ↔
        ∃ t ∈ l, x ∈ get_clean_n_digit_one_code reg t n) ∧
    (∀ t, t ∈ (get_clean_n_digit_codes reg l n).2 ↔
        t ∈ l ∧ get_clean_n_digit_one_code reg t n = ∅) ∧
    (1 ≤ n → ∀ x, x ∈ (get_clean_n_digit_codes reg l n).1 →
        x ∉ (get_clean_n_digit_codes reg l n).2) := by
  refine ⟨mem_clean_fst reg l n, mem_clean_snd reg l n, ?_⟩
  intro hn x hx1 hx2
  obtain ⟨t, _, hx⟩ := (mem_clean_fst reg l n x).mp hx1
  obtain ⟨_, hempty⟩ := (mem_clean_snd reg l n x).mp hx2
  obtain ⟨hlen, hdig, hval⟩ := mem_oneCode_shape reg hn hx
  rw [oneCode_fixed reg hn hlen hdig hval] at hempty
  exact Finset.singleton_ne_empty x hempty

/-- Witness for C3 at a concrete input. -/
theorem set_cleaner_accounting_witness :
    ("86101" ∈ (get_clean_n_digit_codes testReg ["86101", "NotACode"] 5).1 ↔
      ∃ t ∈ ["86101", "NotACode"], "86101" ∈ get_clean_n_digit_one_code testReg t 5) ∧
    1 ≤ 5 ∧
    ("86101" ∈ (get_clean_n_digit_codes testReg ["86101", "NotACode"] 5).1 →
      "86101" ∉ (get_clean_n_digit_codes testReg ["86101", "NotACode"] 5).2) :=
  ⟨(set_cleaner_accounting testReg ["86101", "NotACode"] 5).1 "86101", by decide,
   (set_cleaner_accounting testReg ["86101", "NotACode"] 5).2.2 (by decide) "86101"⟩

/-- C3 counterexample: at digit width 0 the valid set and the invalid set are
not disjoint: the raw token Q is itself rejected (not numeric) while the token
86101 cleans to the section letter Q. -/
theorem set_cleaner_overlap_at_section_level :
    "Q" ∈ (get_clean_n_digit_codes testReg ["Q", "86101"] 0).1 ∧
    "Q" ∈ (get_clean_n_digit_codes testReg ["Q", "86101"] 0).2 := by decide

/-- C4 (amended): the Codability Classifier returns without raising on every
string, list or set input; on any other input shape it either returns early
(falsy input) or propagates a ValueError, because the type-error arm of the
Set Cleaner returns a bare single set that fails the tuple unpacking in the
classifier loop. -/
theorem classifier_no_raise_on_collection_inputs (reg : Registry) (s : String)
    (l : List String) (x : Finset String) :
    (get_codability_level_dyn reg (DynInput.strIn s)).isOk = true ∧
    (get_codability_level_dyn reg (DynInput.listIn l)).isOk = true ∧
    (get_codability_level_dyn reg (DynInput.setIn x)).isOk = true := by
  refine ⟨?_, ?_, ?_⟩ <;>
    · unfold get_codability_level_dyn
      split
      · rfl
      · rfl

/-- C4 counterexample: a truthy non-collection input (the Python int 3) makes
get_codability_level raise ValueError instead of degrading to an empty
result. -/
theorem classifier_value_error_on_non_collection :
    get_codability_level_dyn testReg (DynInput.otherIn true "the Python int 3") =
      Except.error "ValueError: not enough values to unpack" := rfl

/-- C5 (amended): for every positive digit width n, re-cleaning a Code Set all
of whose members are valid n-digit codes of the Registry is a no-op returning
the set itself with an empty invalid set. At width 0 the valid outputs are
section letters, which the cleaner itself rejects as non-numeric, so the claim
fails there. -/
theorem set_cleaner_idempotent_positive_width (reg : Registry) (S : Finset String)
    (n : Nat) (hn : 1 ≤ n)
    (hS : ∀ c ∈ S, c.data.length = n ∧ c.data.all Char.isDigit = true ∧ c ∈ reg.valid) :
    get_clean_n_digit_codes_set reg S n = (S, ∅) := by
  unfold get_clean_n_digit_codes_set
  rw [Prod.mk.injEq]
  constructor
  · ext x
    simp only [Finset.mem_biUnion]
    constructor
    · rintro ⟨t, ht, hx⟩
      obtain ⟨h1, h2, h3⟩ := hS t ht
      rw [oneCode_fixed reg hn h1 h2 h3, Finset.mem_singleton] at hx
      subst hx
      exact ht
    · intro hx
      refine ⟨x, hx, ?_⟩
      rw [oneCode_fixed reg hn (hS x hx).1 (hS x hx).2.1 (hS x hx).2.2]
      simp
  · rw [Finset.filter_eq_empty_iff]
    intro t ht
    rw [oneCode_fixed reg hn (hS t ht).1 (hS t ht).2.1 (hS t ht).2.2]
    simp

/-- Witness for C5 at a concrete input. -/
theorem set_cleaner_idempotent_witness :
    1 ≤ 5 ∧
    get_clean_n_digit_codes_set testReg {"86101", "86210"} 5 = ({"86101", "86210"}, ∅) :=
  ⟨by decide,
   set_cleaner_idempotent_positive_width testReg {"86101", "86210"} 5 (by decide) (by decide)⟩

/-- C5 counterexample: the already-valid width-0 Code Set containing the
registered section letter Q re-cleans to the empty set with Q marked invalid,
not to itself. -/
theorem set_cleaner_not_idempotent_at_section_level :
    "Q" ∈ testReg.valid ∧
    get_clean_n_digit_codes_set testReg {"Q"} 0 = (∅, {"Q"}) := by decide

/-- C6: the score the Resolver records for a code c is exactly the maximum of
the likelihoods (each defaulting to 0 when the likelihood field is absent) of
all candidates whose cleaned code set contains c, and no entry exists when no
candidate reaches c. -/
theorem resolver_merges_scores_by_max (reg : Registry) (n : Nat) (items : List AltItem)
    (c : String) :
    (resolverFinal reg n items).score c =
      listMaxOpt (items.filterMap (reachScore reg n c)) := by
  rw [resolverFinal, fold_score]
  cases listMaxOpt (items.filterMap (reachScore reg n c)) <;> rfl

/-- C7: every code emitted by the Single-Code Cleaner, the Set Cleaner (list or
set input) or the Resolver belongs to the Registry; no expanded but
unregistered candidate ever reaches an output. -/
theorem cleaned_outputs_in_registry (reg : Registry) (s : String) (l : List String)
    (sset : Finset String) (items : List AltItem) (n : Nat) (threshold : ℚ) (x : String) :
    (x ∈ get_clean_n_digit_one_code reg s n → x ∈ reg.valid) ∧
    (x ∈ (get_clean_n_digit_codes reg l n).1 → x ∈ reg.valid) ∧
    (x ∈ (get_clean_n_digit_codes_set reg sset n).1 → x ∈ reg.valid) ∧
    (x ∈ (extract_alt_candidates_n_digit_codes reg items n threshold).1 → x ∈ reg.valid) := by
  refine ⟨oneCode_subset_valid reg s n x, ?_, ?_, ?_⟩
  · intro hx
    obtain ⟨t, _, hx2⟩ := (mem_clean_fst reg l n x).mp hx
    exact oneCode_subset_valid reg t n x hx2
  · intro hx
    obtain ⟨t, _, hx2⟩ := (mem_cleanSet_fst reg sset n x).mp hx
    exact oneCode_subset_valid reg t n x hx2
  · intro hx
    exact resolver_keys_subset_valid reg n items x
      (extract_fst_subset_keys reg items n threshold hx)

/-- Witness for C7 at a concrete input. -/
theorem cleaned_outputs_in_registry_witness : "86101" ∈ testReg.valid :=
  (cleaned_outputs_in_registry testReg "861012" ["x"] ∅ [] 5 0 "86101").1 (by decide)

/-- C8: a raw string whose stripped form is a sentinel value tokenizes to the
empty set, and every character of every returned token is a digit or a
wildcard marker, so the sentinel substrings -9 and 4+ (removed before
extraction) can never occur in a token. -/
theorem tokenizer_sentinel_and_removal (s : String) (padding : Nat) :
    (String.mk (pyStrip s.data) ∈ INVALID_VALUES → parse_numerical_code s padding = ∅) ∧
    (∀ tok ∈ parse_numerical_code s padding, ∀ c ∈ tok.data,
      c.isDigit = true ∨ c = 'x' ∨ c = 'X') := by
  constructor
  · intro h
    unfold parse_numerical_code
    rw [if_pos h]
  · intro tok htok c hc
    simp only [parse_numerical_code] at htok
    split at htok
    · simp at htok
    · rw [List.mem_toFinset] at htok
      obtain ⟨tl, htl, rfl⟩ := List.mem_map.mp htok
      rw [show (String.mk (zfillChars padding tl)).data = zfillChars padding tl from rfl] at hc
      unfold zfillChars at hc
      rcases List.mem_append.mp hc with h0 | htl2
      · left
        have hc0 : c = '0' := List.eq_of_mem_replicate h0
        subst hc0
        decide
      · have htc := extractTokens_chars htl c htl2
        simp only [isTokChar, Bool.or_eq_true, beq_iff_eq] at htc
        tauto

/-- Witness for C8 at concrete inputs. -/
theorem tokenizer_sentinel_and_removal_witness :
    (String.mk (pyStrip (" nan " : String).data) ∈ INVALID_VALUES ∧
      parse_numerical_code " nan " 5 = ∅) ∧
    ("8602x" ∈ parse_numerical_code "86101;8602x;4+" 5 ∧
      ('x'.isDigit = true ∨ 'x' = 'x' ∨ 'x' = 'X')) :=
  ⟨⟨by decide, (tokenizer_sentinel_and_removal " nan " 5).1 (by decide)⟩,
   ⟨by decide,
    (tokenizer_sentinel_and_removal "86101;8602x;4+" 5).2 "8602x" (by decide) 'x' (by decide)⟩⟩

/-- C9: the Expander returns the unchanged singleton whenever the token already
has at least n characters, and otherwise returns exactly the strings of length
n beginning with the token and ending in decimal digits, of which there are
10 ^ (n - len). -/
theorem expander_noop_or_full_enumeration (t : String) (n : Nat) :
    (n ≤ t.data.length → expand_to_n_digit_str t n = {t}) ∧
    (t.data.length < n →
      (expand_to_n_digit_str t n).card = 10 ^ (n - t.data.length) ∧
      (∀ s : String, s ∈ expand_to_n_digit_str t n ↔
        s.data.length = n ∧ s.data.take t.data.length = t.data ∧
        (s.data.drop t.data.length).all Char.isDigit = true)) := by
  constructor
  · intro h
    unfold expand_to_n_digit_str
    rw [if_pos h]
  · intro h
    constructor
    · unfold expand_to_n_digit_str
      rw [if_neg (by omega)]
      rw [Finset.card_image_of_injOn, Finset.card_range]
      intro a ha b hb hab
      simp only [Finset.coe_range, Set.mem_Iio] at ha hb
      have hd : t.data ++ decimalPadChars (n - t.data.length) a =
          t.data ++ decimalPadChars (n - t.data.length) b := congrArg String.data hab
      have hpad := List.append_cancel_left hd
      calc a = charsVal (decimalPadChars (n - t.data.length) a) :=
            (charsVal_decimalPadChars ha).symm
        _ = charsVal (decimalPadChars (n - t.data.length) b) := by rw [hpad]
        _ = b := charsVal_decimalPadChars hb
    · intro s
      rw [mem_expand h]
      constructor
      · rintro ⟨y, hy, rfl⟩
        refine ⟨?_, ?_, ?_⟩
        · show (t.data ++ decimalPadChars (n - t.data.length) y).length = n
          rw [List.length_append, decimalPadChars_length]
          omega
        · exact List.take_left t.data _
        · show ((t.data ++ decimalPadChars (n - t.data.length) y).drop t.data.length).all
            Char.isDigit = true
          rw [List.drop_left]
          exact decimalPadChars_all_digit _ y
      · rintro ⟨hlen, htake, hdrop⟩
        refine ⟨charsVal (s.data.drop t.data.length), ?_, ?_⟩
        · have hlt := charsVal_lt _ hdrop
          rw [List.length_drop, hlen] at hlt
          exact hlt
        · have hrec := decimalPadChars_charsVal _ hdrop
          rw [List.length_drop, hlen] at hrec
          rw [String.ext_iff]
          show s.data = t.data ++ decimalPadChars (n - t.data.length)
            (charsVal (s.data.drop t.data.length))
          rw [hrec]
          conv_lhs => rw [← List.take_append_drop t.data.length s.data]
          rw [htake]

/-- Witness for C9 at concrete inputs. -/
theorem expander_noop_or_full_enumeration_witness :
    (3 ≤ ("861" : String).data.length ∧ expand_to_n_digit_str "861" 3 = {"861"}) ∧
    (("86" : String).data.length < 3 ∧
      (expand_to_n_digit_str "86" 3).card = 10 ^ (3 - ("86" : String).data.length)) :=
  ⟨⟨by decide, (expander_noop_or_full_enumeration "861" 3).1 (by decide)⟩,
   ⟨by decide, ((expander_noop_or_full_enumeration "86" 3).2 (by decide)).1⟩⟩

/-- C10: a non-dict element of the candidate list is skipped entirely: removing
it changes neither the valid set nor the invalid set of the Resolver. -/
theorem resolver_skips_non_dict_elements (reg : Registry) (n : Nat) (threshold : ℚ)
    (pre post : List AltItem) (tag : String) :
    extract_alt_candidates_n_digit_codes reg (pre ++ AltItem.notDict tag :: post) n threshold =
      extract_alt_candidates_n_digit_codes reg (pre ++ post) n threshold := by
  have hfold : resolverFinal reg n (pre ++ AltItem.notDict tag :: post) =
      resolverFinal reg n (pre ++ post) := by
    unfold resolverFinal
    rw [List.foldl_append, List.foldl_append, List.foldl_cons]
    rfl
  unfold extract_alt_candidates_n_digit_codes
  rw [hfold]

end SicData
